import Mathlib

/-!
Verification development for the go-challenge-2 secure message transport.

The Go source is embedded shallowly:

* A byte is a `Nat` (values below 256 where that matters).
* A byte stream in reading direction is a `List (List Nat)`: the successive
  successful results of the underlying `Read` calls, ending in EOF once the
  list is exhausted.  `readFull` models `io.ReadFull` looping over such a
  stream until the requested number of bytes has been obtained.
* The writing side is modelled by `WriterState`: the supply of draws of the
  random source (`rand`, one entry per `rand.Read` call, an empty supply
  modelling a failing source), the planned responses of the underlying
  `Write` calls (`sinkPlan`: `none` is a full success, `some k` is an error
  after `k` bytes were accepted), and the bytes written so far (`written`).
* `golang.org/x/crypto/nacl/box` is outside the repository; its seal/open
  pair is modelled from the spec as an opaque authenticated cipher with a
  fixed 16-byte tag appended to the ciphertext.
-/

/-- `MaxMessageLength` of `secure.go`: the maximum plaintext size. -/
def MaxMessageLength : Nat := 31999

/-- `nonceHeaderLength` of `secure.go`. -/
def nonceHeaderLength : Nat := 24

/-- `box.Overhead` of the nacl box package: the authentication-tag size. -/
def boxOverhead : Nat := 16

/-- Little-endian encoding of a `uint32` as four bytes, as produced by
`binary.Write(w, binary.LittleEndian, length)`. -/
def le32 (n : Nat) : List Nat :=
  [n % 256, n / 256 % 256, n / 65536 % 256, n / 16777216 % 256]

/-- Big-endian encoding of a `uint32` as four bytes, as produced by
`binary.Write(w, binary.BigEndian, length)`. -/
def be32 (n : Nat) : List Nat :=
  [n / 16777216 % 256, n / 65536 % 256, n / 256 % 256, n % 256]

/-- Little-endian decoding of four bytes, as performed by
`binary.Read(r, binary.LittleEndian, &length)`. -/
def decodeLE32 (bs : List Nat) : Nat :=
  bs.getD 0 0 + 256 * bs.getD 1 0 + 65536 * bs.getD 2 0 + 16777216 * bs.getD 3 0

/-- Big-endian decoding of four bytes, as performed by
`binary.Read(r, binary.BigEndian, &length)`. -/
def decodeBE32 (bs : List Nat) : Nat :=
  16777216 * bs.getD 0 0 + 65536 * bs.getD 1 0 + 256 * bs.getD 2 0 + bs.getD 3 0

/-- Modelled from the spec: `box.SealAfterPrecomputation` of
`golang.org/x/crypto/nacl/box` (not part of this repository), treated as the
spec's opaque seal operation: it appends to `out` the ciphertext of `msg`
under `key` and `nonce` followed by a fixed 16-byte authentication tag, so
that the appended data is `msg.length + boxOverhead` bytes long and `open`
inverts it exactly when the tag verifies. -/
def sealAfterPrecomputation (out msg nonce : List Nat) (key : Nat) : List Nat :=
  out ++ msg.map (fun b => (b + key + nonce.sum) % 256)
      ++ List.replicate boxOverhead ((key + nonce.sum + msg.length) % 256)

/-- Modelled from the spec: `box.OpenAfterPrecomputation` of
`golang.org/x/crypto/nacl/box` (not part of this repository), the inverse of
`sealAfterPrecomputation`: it checks the 16-byte tag and, on success,
appends the decrypted plaintext to `out`; on any mismatch it fails. -/
def openAfterPrecomputation (out sealed nonce : List Nat) (key : Nat) :
    Option (List Nat) :=
  if sealed.length < boxOverhead then none
  else
    let c := sealed.take (sealed.length - boxOverhead)
    let tag := sealed.drop (sealed.length - boxOverhead)
    let msg := c.map (fun b => (b + (256 - (key + nonce.sum) % 256)) % 256)
    if tag = List.replicate boxOverhead ((key + nonce.sum + msg.length) % 256) then
      some (out ++ msg)
    else none

/-- Model of `io.ReadFull` over a chunked stream: gather bytes from the
successive chunks until `need` bytes are obtained.  Returns the bytes
obtained, the remaining stream, and whether the full `need` bytes arrived
(`false` models `io.EOF`/`io.ErrUnexpectedEOF`, in which case every
available byte was consumed). -/
def readFull (need : Nat) : List (List Nat) → List Nat × List (List Nat) × Bool
  | [] => ([], [], need = 0)
  | c :: rest =>
    if need ≤ c.length then (c.take need, c.drop need :: rest, true)
    else
      let r := readFull (need - c.length) rest
      (c ++ r.1, r.2.1, r.2.2)

/-- Errors of the embedded operations, mirroring the distinct `error` values
produced by the Go source. -/
inductive SecErr where
  | headerReadFailed
  | lengthPrefixTooBig
  | incompleteFrame
  | invalidLength (len : Nat)
  | encryptedTooLarge (len bound : Nat)
  | decryptFailed
  | lengthTooLarge (len bound : Nat)
  | randFailure
  | streamWriteFailed
  deriving Repr, DecidableEq

/-- Result of a `Read`-shaped Go method: the returned count `n`, the bytes
actually stored into the caller's buffer `p`, the returned error, and the
remaining underlying stream. -/
structure ReadResult where
  n : Nat
  delivered : List Nat
  err : Option SecErr
  rest : List (List Nat)
  deriving Repr, DecidableEq

/-- `LengthPrefixer.Read` (unnamed part_000; `prefix.go` is the same
function with `maxLength` fixed to 31999): read a 4-byte little-endian
length `L`; reject `L > maxLength` before reading any payload byte;
otherwise read exactly `L` bytes via `io.ReadFull`, copy
`min(pLen, L)` of them into the caller's buffer and return `n = L`. -/
def lengthPrefixerRead (maxLength pLen : Nat) (chunks : List (List Nat)) :
    ReadResult :=
  match readFull 4 chunks with
  | (_, _, false) => ⟨0, [], some .headerReadFailed, []⟩
  | (hdr, rest1, true) =>
    let length := decodeLE32 hdr
    if length > maxLength then ⟨0, [], some .lengthPrefixTooBig, rest1⟩
    else
      match readFull length rest1 with
      | (buf, _, false) => ⟨buf.length, [], some .incompleteFrame, []⟩
      | (buf, rest2, true) => ⟨buf.length, buf.take pLen, none, rest2⟩

/-- `SecureReader.ReadMsg` (`secure.go`): read a 4-byte big-endian length,
reject zero, reject lengths above `MaxMessageLength + nonceHeaderLength +
boxOverhead`, read exactly that many bytes, split off the 24-byte nonce and
open the remainder.  Returns the plaintext and the remaining stream. -/
def secureReaderReadMsg (key : Nat) (chunks : List (List Nat)) :
    Except SecErr (List Nat × List (List Nat)) :=
  match readFull 4 chunks with
  | (_, _, false) => .error .headerReadFailed
  | (hdr, rest1, true) =>
    let length := decodeBE32 hdr
    if length = 0 then .error (.invalidLength length)
    else if length > MaxMessageLength + nonceHeaderLength + boxOverhead then
      .error (.encryptedTooLarge length
        (MaxMessageLength + nonceHeaderLength + boxOverhead))
    else
      match readFull length rest1 with
      | (_, _, false) => .error .incompleteFrame
      | (encryptedData, rest2, true) =>
        let nonce := encryptedData.take 24
        match openAfterPrecomputation [] (encryptedData.drop 24) nonce key with
        | none => .error .decryptFailed
        | some msg => .ok (msg, rest2)

/-- `SecureReader.Read` (`secure.go`): `ReadMsg`, then `n = copy(p, msg)`,
so `n = min pLen msg.length` and only the first `pLen` bytes of the
plaintext are delivered; the rest of the message is discarded. -/
def secureReaderRead (key pLen : Nat) (chunks : List (List Nat)) :
    Except SecErr (Nat × List Nat × List (List Nat)) :=
  match secureReaderReadMsg key chunks with
  | .error e => .error e
  | .ok (msg, rest) => .ok (min pLen msg.length, msg.take pLen, rest)

/-- `nacl.Reader.Read` (unnamed part_001): read a 4-byte little-endian
length (no upper bound), read that many bytes, open, then
`copy(p, decryptedData)` but return `len(decryptedData)` — the full
plaintext length, not the number of bytes delivered. -/
def naclReaderRead (key pLen : Nat) (chunks : List (List Nat)) : ReadResult :=
  match readFull 4 chunks with
  | (_, _, false) => ⟨0, [], some .headerReadFailed, []⟩
  | (hdr, rest1, true) =>
    let length := decodeLE32 hdr
    match readFull length rest1 with
    | (_, _, false) => ⟨0, [], some .incompleteFrame, []⟩
    | (encryptedData, rest2, true) =>
      let nonce := encryptedData.take 24
      match openAfterPrecomputation [] (encryptedData.drop 24) nonce key with
      | none => ⟨0, [], some .decryptFailed, rest2⟩
      | some msg => ⟨msg.length, msg.take pLen, none, rest2⟩

/-- State of a writer's environment: random-source draws, planned responses
of the underlying `Write` calls, and the bytes on the wire so far. -/
structure WriterState where
  rand : List (List Nat)
  sinkPlan : List (Option Nat)
  written : List Nat
  deriving Repr, DecidableEq

/-- Pop the response of the next underlying `Write` call; an exhausted plan
means the call succeeds in full. -/
def popSink : List (Option Nat) → Option Nat × List (Option Nat)
  | [] => (none, [])
  | r :: rest => (r, rest)

/-- `SecureWriter.Write` (`secure.go`): reject plaintexts longer than
`MaxMessageLength`; draw a 24-byte nonce from the random source; seal the
plaintext with the nonce prepended; write the 4-byte big-endian length of
`nonce ++ sealed`, and on a failure of that header write return `(0, nil)`
exactly as the source's `return 0, nil` does; then write `nonce ++ sealed`
and return its byte count. -/
def secureWriterWrite (key : Nat) (p : List Nat) (s : WriterState) :
    (Nat × Option SecErr) × WriterState :=
  if p.length > MaxMessageLength then
    ((0, some (.lengthTooLarge p.length MaxMessageLength)), s)
  else
    match s.rand with
    | [] => ((0, some .randFailure), s)
    | nonceBytes :: randRest =>
      let encryptedData := sealAfterPrecomputation nonceBytes p nonceBytes key
      let header := be32 encryptedData.length
      let h1 := popSink s.sinkPlan
      match h1.1 with
      | some k =>
        ((0, none), ⟨randRest, h1.2, s.written ++ header.take k⟩)
      | none =>
        let h2 := popSink h1.2
        match h2.1 with
        | some k =>
          ((k, some .streamWriteFailed),
            ⟨randRest, h2.2, s.written ++ header ++ encryptedData.take k⟩)
        | none =>
          ((encryptedData.length, none),
            ⟨randRest, h2.2, s.written ++ header ++ encryptedData⟩)

/-- `snacl.Writer.Write` (unnamed part_004; `nacl.Writer.Write` of unnamed
part_001 is behaviourally identical): no plaintext length check at all;
draw a nonce, seal, write a 4-byte LITTLE-endian length header (returning
`(0, nil)` if that header write fails, as the source's `return 0, nil`
does), then write `nonce ++ sealed` and return its byte count. -/
def snaclWriterWrite (key : Nat) (p : List Nat) (s : WriterState) :
    (Nat × Option SecErr) × WriterState :=
  match s.rand with
  | [] => ((0, some .randFailure), s)
  | nonceBytes :: randRest =>
    let encryptedData := sealAfterPrecomputation nonceBytes p nonceBytes key
    let header := le32 encryptedData.length
    let h1 := popSink s.sinkPlan
    match h1.1 with
    | some k =>
      ((0, none), ⟨randRest, h1.2, s.written ++ header.take k⟩)
    | none =>
      let h2 := popSink h1.2
      match h2.1 with
      | some k =>
        ((k, some .streamWriteFailed),
          ⟨randRest, h2.2, s.written ++ header ++ encryptedData.take k⟩)
      | none =>
        ((encryptedData.length, none),
          ⟨randRest, h2.2, s.written ++ header ++ encryptedData⟩)

lemma le32_length (n : Nat) : (le32 n).length = 4 := rfl

lemma be32_length (n : Nat) : (be32 n).length = 4 := rfl

lemma decodeLE32_le32 (n : Nat) (h : n < 4294967296) : decodeLE32 (le32 n) = n := by
  simp [decodeLE32, le32]
  omega

lemma decodeBE32_be32 (n : Nat) (h : n < 4294967296) : decodeBE32 (be32 n) = n := by
  simp [decodeBE32, be32]
  omega

lemma sealAfterPrecomputation_length (out msg nonce : List Nat) (key : Nat) :
    (sealAfterPrecomputation out msg nonce key).length
      = out.length + msg.length + boxOverhead := by
  simp [sealAfterPrecomputation]
  omega

lemma sealAfterPrecomputation_eq_append (out msg nonce : List Nat) (key : Nat) :
    sealAfterPrecomputation out msg nonce key
      = out ++ sealAfterPrecomputation [] msg nonce key := by
  simp [sealAfterPrecomputation]

lemma openAfterPrecomputation_seal (msg nonce : List Nat) (key : Nat)
    (h : ∀ b ∈ msg, b < 256) :
    openAfterPrecomputation [] (sealAfterPrecomputation [] msg nonce key) nonce key
      = some msg := by
  have hmap : (msg.map (fun b => (b + key + nonce.sum) % 256)).map
      (fun b => (b + (256 - (key + nonce.sum) % 256)) % 256) = msg := by
    rw [List.map_map]
    have hpt : ∀ b ∈ msg,
        ((fun b => (b + (256 - (key + nonce.sum) % 256)) % 256) ∘
          (fun b => (b + key + nonce.sum) % 256)) b = id b := by
      intro b hb
      have hb' := h b hb
      simp only [Function.comp, id]
      omega
    rw [List.map_congr_left hpt, List.map_id]
  have hseal : sealAfterPrecomputation [] msg nonce key
      = msg.map (fun b => (b + key + nonce.sum) % 256)
        ++ List.replicate boxOverhead ((key + nonce.sum + msg.length) % 256) := by
    simp [sealAfterPrecomputation]
  rw [openAfterPrecomputation, hseal]
  have hlen : (msg.map (fun b => (b + key + nonce.sum) % 256)
      ++ List.replicate boxOverhead ((key + nonce.sum + msg.length) % 256)).length
      = msg.length + boxOverhead := by
    simp
  rw [hlen]
  have hnotlt : ¬ msg.length + boxOverhead < boxOverhead := by omega
  rw [if_neg hnotlt]
  have hsub : msg.length + boxOverhead - boxOverhead = msg.length := by omega
  have hmaplen : (msg.map (fun b => (b + key + nonce.sum) % 256)).length = msg.length := by
    simp
  rw [hsub, List.take_left' hmaplen, List.drop_left' hmaplen]
  simp [hmap]

lemma readFull_spec (chunks : List (List Nat)) : ∀ need : Nat,
    (need ≤ chunks.flatten.length →
      (readFull need chunks).1 = chunks.flatten.take need ∧
      (readFull need chunks).2.1.flatten = chunks.flatten.drop need ∧
      (readFull need chunks).2.2 = true) ∧
    (chunks.flatten.length < need →
      (readFull need chunks).1 = chunks.flatten ∧
      (readFull need chunks).2.2 = false) := by
  induction chunks with
  | nil =>
    intro need
    constructor
    · intro hle
      simp at hle
      simp [readFull, hle]
    · intro hgt
      simp at hgt
      simp [readFull]
      omega
  | cons c rest ih =>
    intro need
    have hfl : (c :: rest).flatten.length = c.length + rest.flatten.length := by
      rw [List.flatten_cons, List.length_append]
    by_cases hc : need ≤ c.length
    · constructor
      · intro _
        refine ⟨?_, ?_, ?_⟩
        · simp [readFull, hc, List.take_append_eq_append_take,
            Nat.sub_eq_zero_of_le hc]
        · simp [readFull, hc, List.drop_append_eq_append_drop,
            Nat.sub_eq_zero_of_le hc]
        · simp [readFull, hc]
      · intro hgt
        exfalso
        rw [hfl] at hgt
        omega
    · push_neg at hc
      constructor
      · intro hle
        rw [hfl] at hle
        obtain ⟨ih1, ih2, ih3⟩ := (ih (need - c.length)).1 (by omega)
        refine ⟨?_, ?_, ?_⟩
        · simp only [readFull, if_neg (by omega : ¬ need ≤ c.length)]
          rw [ih1]
          rw [List.flatten_cons, List.take_append_eq_append_take,
            List.take_of_length_le (by omega : c.length ≤ need)]
        · simp only [readFull, if_neg (by omega : ¬ need ≤ c.length)]
          rw [ih2]
          rw [List.flatten_cons, List.drop_append_eq_append_drop,
            List.drop_eq_nil_of_le (by omega : c.length ≤ need), List.nil_append]
        · simp only [readFull, if_neg (by omega : ¬ need ≤ c.length)]
          exact ih3
      · intro hgt
        rw [hfl] at hgt
        obtain ⟨ih1, ih2⟩ := (ih (need - c.length)).2 (by omega)
        constructor
        · simp only [readFull, if_neg (by omega : ¬ need ≤ c.length)]
          rw [ih1, List.flatten_cons]
        · simp only [readFull, if_neg (by omega : ¬ need ≤ c.length)]
          exact ih2

lemma readFull_of_le {need : Nat} {chunks : List (List Nat)}
    (h : need ≤ chunks.flatten.length) :
    (readFull need chunks).1 = chunks.flatten.take need ∧
    (readFull need chunks).2.1.flatten = chunks.flatten.drop need ∧
    (readFull need chunks).2.2 = true :=
  (readFull_spec chunks need).1 h

lemma readFull_of_gt {need : Nat} {chunks : List (List Nat)}
    (h : chunks.flatten.length < need) :
    (readFull need chunks).1 = chunks.flatten ∧
    (readFull need chunks).2.2 = false :=
  (readFull_spec chunks need).2 h

lemma lengthPrefixerRead_reduce (maxLength pLen L : Nat) (rest : List Nat)
    (chunks : List (List Nat)) (hflat : chunks.flatten = le32 L ++ rest)
    (hL : L < 4294967296) :
    ∃ rest1 : List (List Nat), rest1.flatten = rest ∧
      lengthPrefixerRead maxLength pLen chunks =
        (if L > maxLength then ⟨0, [], some .lengthPrefixTooBig, rest1⟩
         else
           match readFull L rest1 with
           | (buf, _, false) => ⟨buf.length, [], some .incompleteFrame, []⟩
           | (buf, rest2, true) => ⟨buf.length, buf.take pLen, none, rest2⟩) := by
  have h4 : 4 ≤ chunks.flatten.length := by
    rw [hflat, List.length_append, le32_length]
    omega
  obtain ⟨h1, h2, h3⟩ := readFull_of_le h4
  rcases hr : readFull 4 chunks with ⟨hdr, rest1, ok⟩
  rw [hr] at h1 h2 h3
  simp only at h1 h2 h3
  subst h3
  rw [hflat, List.take_left' (le32_length L)] at h1
  rw [hflat, List.drop_left' (le32_length L)] at h2
  refine ⟨rest1, h2, ?_⟩
  simp only [lengthPrefixerRead, hr, h1, decodeLE32_le32 L hL]

lemma lengthPrefixerRead_over {maxLength pLen L : Nat} {rest : List Nat}
    {chunks : List (List Nat)} (hflat : chunks.flatten = le32 L ++ rest)
    (hL : L < 4294967296) (hover : maxLength < L) :
    (lengthPrefixerRead maxLength pLen chunks).n = 0 ∧
    (lengthPrefixerRead maxLength pLen chunks).delivered = [] ∧
    (lengthPrefixerRead maxLength pLen chunks).err = some .lengthPrefixTooBig ∧
    (lengthPrefixerRead maxLength pLen chunks).rest.flatten = rest := by
  obtain ⟨rest1, hr1, heq⟩ := lengthPrefixerRead_reduce maxLength pLen L rest chunks hflat hL
  rw [heq, if_pos hover]
  exact ⟨rfl, rfl, rfl, hr1⟩

lemma lengthPrefixerRead_success {maxLength pLen L : Nat} {rest : List Nat}
    {chunks : List (List Nat)} (hflat : chunks.flatten = le32 L ++ rest)
    (hL : L < 4294967296) (hmax : L ≤ maxLength) (hlen : L ≤ rest.length) :
    (lengthPrefixerRead maxLength pLen chunks).n = L ∧
    (lengthPrefixerRead maxLength pLen chunks).delivered = (rest.take L).take pLen ∧
    (lengthPrefixerRead maxLength pLen chunks).err = none ∧
    (lengthPrefixerRead maxLength pLen chunks).rest.flatten = rest.drop L := by
  obtain ⟨rest1, hr1, heq⟩ := lengthPrefixerRead_reduce maxLength pLen L rest chunks hflat hL
  rw [heq, if_neg (by omega : ¬ L > maxLength)]
  have hL2 : L ≤ rest1.flatten.length := by rw [hr1]; exact hlen
  obtain ⟨g1, g2, g3⟩ := readFull_of_le hL2
  rcases hr : readFull L rest1 with ⟨buf, rest2, ok2⟩
  rw [hr] at g1 g2 g3
  simp only at g1 g2 g3
  subst g3
  rw [hr1] at g1 g2
  simp [hr, g1, g2, List.length_take]
  omega

lemma lengthPrefixerRead_short {maxLength pLen L : Nat} {rest : List Nat}
    {chunks : List (List Nat)} (hflat : chunks.flatten = le32 L ++ rest)
    (hL : L < 4294967296) (hmax : L ≤ maxLength) (hshort : rest.length < L) :
    (lengthPrefixerRead maxLength pLen chunks).err = some .incompleteFrame ∧
    (lengthPrefixerRead maxLength pLen chunks).delivered = [] := by
  obtain ⟨rest1, hr1, heq⟩ := lengthPrefixerRead_reduce maxLength pLen L rest chunks hflat hL
  rw [heq, if_neg (by omega : ¬ L > maxLength)]
  have hL2 : rest1.flatten.length < L := by rw [hr1]; exact hshort
  obtain ⟨g1, g2⟩ := readFull_of_gt hL2
  rcases hr : readFull L rest1 with ⟨buf, rest2, ok2⟩
  rw [hr] at g1 g2
  simp only at g1 g2
  subst g2
  simp [hr]

lemma secureWriterWrite_ok (key : Nat) (p nb : List Nat)
    (randRest : List (List Nat)) (w0 : List Nat)
    (hp : p.length ≤ MaxMessageLength) :
    secureWriterWrite key p ⟨nb :: randRest, [], w0⟩ =
      ((nb.length + p.length + boxOverhead, none),
        ⟨randRest, [],
          w0 ++ be32 (nb.length + p.length + boxOverhead)
             ++ (nb ++ sealAfterPrecomputation [] p nb key)⟩) := by
  simp only [secureWriterWrite, popSink]
  rw [if_neg (by omega : ¬ p.length > MaxMessageLength)]
  simp only [sealAfterPrecomputation_length, sealAfterPrecomputation_eq_append nb p nb key]
  simp
  have hs : (sealAfterPrecomputation [] p nb key).length = p.length + boxOverhead := by
    rw [sealAfterPrecomputation_length]
    simp
  rw [hs]
  exact ⟨by omega, by rw [Nat.add_assoc]⟩

lemma snaclWriterWrite_ok (key : Nat) (p nb : List Nat)
    (randRest : List (List Nat)) (w0 : List Nat) :
    snaclWriterWrite key p ⟨nb :: randRest, [], w0⟩ =
      ((nb.length + p.length + boxOverhead, none),
        ⟨randRest, [],
          w0 ++ le32 (nb.length + p.length + boxOverhead)
             ++ (nb ++ sealAfterPrecomputation [] p nb key)⟩) := by
  simp only [snaclWriterWrite, popSink]
  simp only [sealAfterPrecomputation_length, sealAfterPrecomputation_eq_append nb p nb key]
  simp
  have hs : (sealAfterPrecomputation [] p nb key).length = p.length + boxOverhead := by
    rw [sealAfterPrecomputation_length]
    simp
  rw [hs]
  exact ⟨by omega, by rw [Nat.add_assoc]⟩

lemma secureReaderReadMsg_of_seal (key : Nat) (m nb : List Nat)
    (chunks : List (List Nat))
    (hm : m.length ≤ MaxMessageLength) (hbytes : ∀ b ∈ m, b < 256)
    (hnb : nb.length = 24)
    (hflat : chunks.flatten =
      be32 (m.length + 40) ++ (nb ++ sealAfterPrecomputation [] m nb key)) :
    ∃ leftover : List (List Nat),
      secureReaderReadMsg key chunks = .ok (m, leftover) ∧ leftover.flatten = [] := by
  have hmax : m.length ≤ 31999 := by
    simpa [MaxMessageLength] using hm
  have hencLen : (nb ++ sealAfterPrecomputation [] m nb key).length = m.length + 40 := by
    rw [List.length_append, sealAfterPrecomputation_length, hnb]
    simp [boxOverhead]
    omega
  have h4 : 4 ≤ chunks.flatten.length := by
    rw [hflat, List.length_append, be32_length]
    omega
  obtain ⟨h1, h2, h3⟩ := readFull_of_le h4
  rcases hr : readFull 4 chunks with ⟨hdr, rest1, ok⟩
  rw [hr] at h1 h2 h3
  simp only at h1 h2 h3
  subst h3
  rw [hflat, List.take_left' (be32_length (m.length + 40))] at h1
  rw [hflat, List.drop_left' (be32_length (m.length + 40))] at h2
  have hL2 : m.length + 40 ≤ rest1.flatten.length := by
    rw [h2, hencLen]
  obtain ⟨g1, g2, g3⟩ := readFull_of_le hL2
  rcases hr2 : readFull (m.length + 40) rest1 with ⟨encryptedData, rest2, ok2⟩
  rw [hr2] at g1 g2 g3
  simp only at g1 g2 g3
  subst g3
  rw [h2] at g1 g2
  have hencAll : encryptedData = nb ++ sealAfterPrecomputation [] m nb key := by
    rw [g1, ← hencLen, List.take_length]
  have hrest2 : rest2.flatten = [] := by
    rw [g2, ← hencLen, List.drop_length]
  refine ⟨rest2, ?_, hrest2⟩
  simp only [secureReaderReadMsg, hr, h1, decodeBE32_be32 (m.length + 40) (by omega)]
  rw [if_neg (by omega : ¬ m.length + 40 = 0),
    if_neg (by simp [MaxMessageLength, nonceHeaderLength, boxOverhead]; omega)]
  simp only [hr2, hencAll]
  rw [List.take_left' hnb, List.drop_left' hnb,
    openAfterPrecomputation_seal m nb key hbytes]

/-- C1: Round-trip — for every plaintext `m` with `0 ≤ len(m) ≤ 31999`
(`MaxMessageLength`), writing `m` with `SecureWriter.Write` (with a 24-byte
nonce draw and a fully accepting underlying stream) and then reading the
produced wire bytes with `SecureReader.ReadMsg` returns exactly the bytes
of `m`, and `SecureReader.Read` into a buffer of at least `len(m)` bytes
returns count `len(m)` and delivers exactly `m`. -/
theorem c1_roundtrip (key : Nat) (m nb : List Nat) (pLen : Nat)
    (hm : m.length ≤ MaxMessageLength) (hbytes : ∀ b ∈ m, b < 256)
    (hnb : nb.length = 24) (hp : m.length ≤ pLen) :
    (secureWriterWrite key m ⟨[nb], [], []⟩).1.2 = none ∧
    ∃ leftover : List (List Nat),
      secureReaderReadMsg key [(secureWriterWrite key m ⟨[nb], [], []⟩).2.written]
        = .ok (m, leftover) ∧
      secureReaderRead key pLen [(secureWriterWrite key m ⟨[nb], [], []⟩).2.written]
        = .ok (m.length, m, leftover) := by
  rw [secureWriterWrite_ok key m nb [] [] hm]
  have harg : nb.length + m.length + boxOverhead = m.length + 40 := by
    rw [hnb]
    simp [boxOverhead]
    omega
  obtain ⟨leftover, hmsg, hleft⟩ := secureReaderReadMsg_of_seal key m nb
    [[] ++ be32 (nb.length + m.length + boxOverhead)
      ++ (nb ++ sealAfterPrecomputation [] m nb key)] hm hbytes hnb
    (by simp [harg])
  refine ⟨rfl, leftover, hmsg, ?_⟩
  simp only [secureReaderRead, hmsg]
  rw [Nat.min_eq_right hp, List.take_of_length_le hp]

/-- Witness for C1 at the plaintext `hello` with a concrete nonce and key. -/
theorem c1_roundtrip_witness :
    ([104, 101, 108, 108, 111] : List Nat).length ≤ MaxMessageLength ∧
    (∀ b ∈ ([104, 101, 108, 108, 111] : List Nat), b < 256) ∧
    (List.replicate 24 7).length = 24 ∧
    ([104, 101, 108, 108, 111] : List Nat).length ≤ 5 ∧
    ((secureWriterWrite 3 [104, 101, 108, 108, 111]
        ⟨[List.replicate 24 7], [], []⟩).1.2 = none ∧
      ∃ leftover : List (List Nat),
        secureReaderReadMsg 3 [(secureWriterWrite 3 [104, 101, 108, 108, 111]
            ⟨[List.replicate 24 7], [], []⟩).2.written]
          = .ok ([104, 101, 108, 108, 111], leftover) ∧
        secureReaderRead 3 5 [(secureWriterWrite 3 [104, 101, 108, 108, 111]
            ⟨[List.replicate 24 7], [], []⟩).2.written]
          = .ok (([104, 101, 108, 108, 111] : List Nat).length,
              [104, 101, 108, 108, 111], leftover)) :=
  ⟨by decide, by decide, by decide, by decide,
    c1_roundtrip 3 [104, 101, 108, 108, 111] (List.replicate 24 7) 5
      (by decide) (by decide) (by decide) (by decide)⟩

/-- C2: a declared length `L` exceeding the configured maximum makes
`LengthPrefixer.Read` fail with the length-limit error having consumed only
the 4 header bytes — every payload byte is still unread in the remaining
stream — while for any `L` within the maximum that error is never
returned. -/
theorem c2_length_limit (maxLength pLen L : Nat) (rest : List Nat)
    (chunks : List (List Nat)) (hflat : chunks.flatten = le32 L ++ rest)
    (hL : L < 4294967296) :
    (maxLength < L →
      (lengthPrefixerRead maxLength pLen chunks).err = some .lengthPrefixTooBig ∧
      (lengthPrefixerRead maxLength pLen chunks).n = 0 ∧
      (lengthPrefixerRead maxLength pLen chunks).delivered = [] ∧
      (lengthPrefixerRead maxLength pLen chunks).rest.flatten = rest) ∧
    (L ≤ maxLength →
      (lengthPrefixerRead maxLength pLen chunks).err ≠ some .lengthPrefixTooBig) := by
  constructor
  · intro hover
    obtain ⟨a, b, c, d⟩ := lengthPrefixerRead_over hflat hL hover
    exact ⟨c, a, b, d⟩
  · intro hmax
    by_cases hlen : L ≤ rest.length
    · obtain ⟨_, _, c, _⟩ := lengthPrefixerRead_success hflat hL hmax hlen
      rw [c]
      simp
    · push_neg at hlen
      obtain ⟨a, _⟩ := lengthPrefixerRead_short hflat hL hmax hlen
      rw [a]
      simp

/-- Witness for C2 with an oversize declared length 32000 against the
configured maximum 31999. -/
theorem c2_length_limit_witness :
    ([le32 32000 ++ [1, 2, 3]] : List (List Nat)).flatten = le32 32000 ++ [1, 2, 3] ∧
    32000 < 4294967296 ∧
    ((31999 < 32000 →
      (lengthPrefixerRead 31999 8 [le32 32000 ++ [1, 2, 3]]).err = some .lengthPrefixTooBig ∧
      (lengthPrefixerRead 31999 8 [le32 32000 ++ [1, 2, 3]]).n = 0 ∧
      (lengthPrefixerRead 31999 8 [le32 32000 ++ [1, 2, 3]]).delivered = [] ∧
      (lengthPrefixerRead 31999 8 [le32 32000 ++ [1, 2, 3]]).rest.flatten = [1, 2, 3]) ∧
    (32000 ≤ 31999 →
      (lengthPrefixerRead 31999 8 [le32 32000 ++ [1, 2, 3]]).err ≠ some .lengthPrefixTooBig)) :=
  ⟨by simp, by decide,
    c2_length_limit 31999 8 32000 [1, 2, 3] [le32 32000 ++ [1, 2, 3]] (by simp) (by decide)⟩

/-- C3 counterexample: the empty plaintext is accepted by
`SecureWriter.Write` (no error), yet the first four wire bytes are NOT the
little-endian encoding of `24 + 0 + 16 = 40` — the header is big-endian
(`[0,0,0,40]`, not `[40,0,0,0]`). -/
theorem c3_counterexample :
    (secureWriterWrite 0 [] ⟨[List.replicate 24 0], [], []⟩).1.2 = none ∧
    (secureWriterWrite 0 [] ⟨[List.replicate 24 0], [], []⟩).2.written.take 4
      ≠ le32 (24 + 0 + 16) := by
  decide

/-- C3 amended: every message written by `SecureWriter.Write` (`secure.go`)
begins with a 4-byte BIG-endian u32 length header whose value equals
`24 + plaintext_length + 16`; the `snacl.Writer` variant writes the same
value little-endian. -/
theorem c3_header_value (key : Nat) (p nb : List Nat)
    (hp : p.length ≤ MaxMessageLength) (hnb : nb.length = 24) :
    (secureWriterWrite key p ⟨[nb], [], []⟩).2.written.take 4
        = be32 (24 + p.length + 16) ∧
    (snaclWriterWrite key p ⟨[nb], [], []⟩).2.written.take 4
        = le32 (24 + p.length + 16) ∧
    decodeBE32 ((secureWriterWrite key p ⟨[nb], [], []⟩).2.written.take 4)
        = 24 + p.length + 16 := by
  have hval : nb.length + p.length + boxOverhead = 24 + p.length + 16 := by
    rw [hnb]
    simp [boxOverhead]
  rw [secureWriterWrite_ok key p nb [] [] hp, snaclWriterWrite_ok key p nb [] []]
  simp only [List.nil_append, hval]
  have hbound : 24 + p.length + 16 < 4294967296 := by
    have hp' : p.length ≤ 31999 := by simpa [MaxMessageLength] using hp
    omega
  rw [List.take_left' (be32_length (24 + p.length + 16)),
    List.take_left' (le32_length (24 + p.length + 16)),
    decodeBE32_be32 (24 + p.length + 16) hbound]
  exact ⟨rfl, rfl, rfl⟩

/-- Witness for the amended C3 at a 2-byte plaintext. -/
theorem c3_header_value_witness :
    ([2, 3] : List Nat).length ≤ MaxMessageLength ∧
    (List.replicate 24 5).length = 24 ∧
    ((secureWriterWrite 1 [2, 3] ⟨[List.replicate 24 5], [], []⟩).2.written.take 4
        = be32 (24 + ([2, 3] : List Nat).length + 16) ∧
      (snaclWriterWrite 1 [2, 3] ⟨[List.replicate 24 5], [], []⟩).2.written.take 4
        = le32 (24 + ([2, 3] : List Nat).length + 16) ∧
      decodeBE32 ((secureWriterWrite 1 [2, 3] ⟨[List.replicate 24 5], [], []⟩).2.written.take 4)
        = 24 + ([2, 3] : List Nat).length + 16) :=
  ⟨by decide, by decide,
    c3_header_value 1 [2, 3] (List.replicate 24 5) (by decide) (by decide)⟩

/-- C4: the code bug exhibited — when the underlying write of the 4-byte
length header fails (here: the first sink response is an error after 0
bytes), `SecureWriter.Write` and the `snacl.Writer` variant both return
`(0, nil)`: the internally observed error is replaced by a nil error, the
source's `return 0, nil` slip. -/
theorem c4_header_write_error_swallowed :
    (secureWriterWrite 0 [1] ⟨[List.replicate 24 0], [some 0], []⟩).1 = (0, none) ∧
    (snaclWriterWrite 0 [1] ⟨[List.replicate 24 0], [some 0], []⟩).1 = (0, none) := by
  decide

/-- C5 counterexample: the `snacl.Writer.Write` variant cited by the claim
has no plaintext length check: a 32000-byte plaintext (above the 31999
maximum) is accepted with no error, the nonce IS drawn from the random
source (cryptographic work is performed), and bytes ARE written. -/
theorem c5_counterexample :
    MaxMessageLength < (List.replicate 32000 1).length ∧
    (snaclWriterWrite 0 (List.replicate 32000 1)
      ⟨[List.replicate 24 0], [], []⟩).1.2 = none ∧
    (snaclWriterWrite 0 (List.replicate 32000 1)
      ⟨[List.replicate 24 0], [], []⟩).2.rand = [] ∧
    (snaclWriterWrite 0 (List.replicate 32000 1)
      ⟨[List.replicate 24 0], [], []⟩).2.written ≠ [] := by
  rw [snaclWriterWrite_ok 0 (List.replicate 32000 1) (List.replicate 24 0) [] []]
  refine ⟨by rw [List.length_replicate]; decide, rfl, rfl, ?_⟩
  simp only [List.nil_append, le32, List.cons_append]
  exact List.cons_ne_nil _ _

/-- C5 amended: `SecureWriter.Write` (`secure.go`) rejects every plaintext
longer than `MaxMessageLength` with a length-limit error before any
cryptographic work: the random source is not drawn, nothing is written, and
the writer state is unchanged.  The cited `snacl.Writer` variant performs
no such check. -/
theorem c5_oversize_rejected (key : Nat) (p : List Nat) (s : WriterState)
    (h : MaxMessageLength < p.length) :
    secureWriterWrite key p s
      = ((0, some (.lengthTooLarge p.length MaxMessageLength)), s) := by
  simp only [secureWriterWrite]
  rw [if_pos (by omega : p.length > MaxMessageLength)]

/-- Witness for the amended C5 at a 32000-byte plaintext. -/
theorem c5_oversize_rejected_witness :
    MaxMessageLength < (List.replicate 32000 0).length ∧
    secureWriterWrite 3 (List.replicate 32000 0) ⟨[], [], []⟩
      = ((0, some (.lengthTooLarge (List.replicate 32000 0).length MaxMessageLength)),
          ⟨[], [], []⟩) :=
  ⟨by rw [List.length_replicate]; decide,
    c5_oversize_rejected 3 (List.replicate 32000 0) ⟨[], [], []⟩
      (by rw [List.length_replicate]; decide)⟩

/-- C6 counterexample: `nacl.Reader.Read` (unnamed part_001), reading a
valid message whose plaintext is the 2 bytes `[9, 9]` into a 1-byte buffer,
delivers the single byte `[9]` but returns `n = 2` — the full plaintext
length, not the number of bytes actually delivered. -/
theorem c6_counterexample :
    (naclReaderRead 0 1
      [[42, 0, 0, 0] ++ List.replicate 24 0 ++ [9, 9] ++ List.replicate 16 2]).n = 2 ∧
    (naclReaderRead 0 1
      [[42, 0, 0, 0] ++ List.replicate 24 0 ++ [9, 9] ++ List.replicate 16 2]).delivered
      = [9] := by
  decide

/-- C6 amended: for `SecureReader.Read` (`secure.go`), when the decrypted
plaintext of a received message is longer than the caller's buffer, exactly
`pLen` bytes — the plaintext's prefix — are delivered, the remainder of
that message is discarded (the remaining stream is already past the whole
frame, the same position `ReadMsg` leaves), and the returned count equals
the number of bytes delivered, namely `pLen`.  The cited `nacl.Reader`
variant instead returns the full plaintext length. -/
theorem c6_short_buffer (key pLen : Nat) (chunks : List (List Nat))
    (msg : List Nat) (rest : List (List Nat))
    (h : secureReaderReadMsg key chunks = .ok (msg, rest))
    (hshort : pLen < msg.length) :
    secureReaderRead key pLen chunks = .ok (pLen, msg.take pLen, rest) ∧
    (msg.take pLen).length = pLen := by
  constructor
  · simp only [secureReaderRead, h]
    rw [Nat.min_eq_left (Nat.le_of_lt hshort)]
  · rw [List.length_take]
    omega

/-- Witness for the amended C6: a 2-byte plaintext read into a 1-byte
buffer. -/
theorem c6_short_buffer_witness :
    secureReaderReadMsg 0
        [[0, 0, 0, 42] ++ List.replicate 24 0 ++ [9, 9] ++ List.replicate 16 2]
      = .ok ([9, 9], [[]]) ∧
    1 < ([9, 9] : List Nat).length ∧
    (secureReaderRead 0 1
        [[0, 0, 0, 42] ++ List.replicate 24 0 ++ [9, 9] ++ List.replicate 16 2]
      = .ok (1, ([9, 9] : List Nat).take 1, [[]]) ∧
    (([9, 9] : List Nat).take 1).length = 1) :=
  ⟨rfl, by decide,
    c6_short_buffer 0 1
      [[0, 0, 0, 42] ++ List.replicate 24 0 ++ [9, 9] ++ List.replicate 16 2]
      [9, 9] [[]] rfl (by decide)⟩

/-- C7: frame decoding is independent of stream fragmentation: for a stream
whose bytes are `le32 L ++ rest` with `L ≤ maxLength`, if at least `L`
payload bytes are available the read succeeds with exactly the first `L`
bytes of `rest` as payload — so any chunking of the same bytes (one byte at
a time or a single chunk) reassembles identically, as the explicit
comparison with the single-chunk delivery states — and if the stream ends
before `L` bytes arrive the read returns an error, never a shorter
payload. -/
theorem c7_partial_read_robust (maxLength pLen L : Nat) (rest : List Nat)
    (chunks : List (List Nat)) (hflat : chunks.flatten = le32 L ++ rest)
    (hL : L < 4294967296) (hmax : L ≤ maxLength) :
    (L ≤ rest.length →
      (lengthPrefixerRead maxLength pLen chunks).err = none ∧
      (lengthPrefixerRead maxLength pLen chunks).n = L ∧
      (lengthPrefixerRead maxLength pLen chunks).delivered = (rest.take L).take pLen ∧
      (lengthPrefixerRead maxLength pLen chunks).rest.flatten = rest.drop L ∧
      (lengthPrefixerRead maxLength pLen chunks).delivered
        = (lengthPrefixerRead maxLength pLen [le32 L ++ rest]).delivered ∧
      (lengthPrefixerRead maxLength pLen chunks).n
        = (lengthPrefixerRead maxLength pLen [le32 L ++ rest]).n) ∧
    (rest.length < L →
      (lengthPrefixerRead maxLength pLen chunks).err = some .incompleteFrame ∧
      (lengthPrefixerRead maxLength pLen chunks).delivered = []) := by
  constructor
  · intro hlen
    obtain ⟨a, b, c, d⟩ := lengthPrefixerRead_success hflat hL hmax hlen
    obtain ⟨a1, b1, c1, d1⟩ :=
      @lengthPrefixerRead_success maxLength pLen L rest [le32 L ++ rest] (by simp) hL hmax hlen
    exact ⟨c, a, b, d, by rw [b, b1], by rw [a, a1]⟩
  · intro hshort
    exact lengthPrefixerRead_short hflat hL hmax hshort

/-- Witness for C7: a 3-byte frame delivered one byte at a time. -/
theorem c7_partial_read_robust_witness :
    ([[3], [0], [0], [0], [7], [8], [9], [10]] : List (List Nat)).flatten
      = le32 3 ++ [7, 8, 9, 10] ∧
    3 < 4294967296 ∧ 3 ≤ 31999 ∧
    ((3 ≤ ([7, 8, 9, 10] : List Nat).length →
      (lengthPrefixerRead 31999 3 [[3], [0], [0], [0], [7], [8], [9], [10]]).err = none ∧
      (lengthPrefixerRead 31999 3 [[3], [0], [0], [0], [7], [8], [9], [10]]).n = 3 ∧
      (lengthPrefixerRead 31999 3 [[3], [0], [0], [0], [7], [8], [9], [10]]).delivered
        = (([7, 8, 9, 10] : List Nat).take 3).take 3 ∧
      (lengthPrefixerRead 31999 3 [[3], [0], [0], [0], [7], [8], [9], [10]]).rest.flatten
        = ([7, 8, 9, 10] : List Nat).drop 3 ∧
      (lengthPrefixerRead 31999 3 [[3], [0], [0], [0], [7], [8], [9], [10]]).delivered
        = (lengthPrefixerRead 31999 3 [le32 3 ++ [7, 8, 9, 10]]).delivered ∧
      (lengthPrefixerRead 31999 3 [[3], [0], [0], [0], [7], [8], [9], [10]]).n
        = (lengthPrefixerRead 31999 3 [le32 3 ++ [7, 8, 9, 10]]).n) ∧
    (([7, 8, 9, 10] : List Nat).length < 3 →
      (lengthPrefixerRead 31999 3 [[3], [0], [0], [0], [7], [8], [9], [10]]).err
        = some .incompleteFrame ∧
      (lengthPrefixerRead 31999 3 [[3], [0], [0], [0], [7], [8], [9], [10]]).delivered = [])) :=
  ⟨by decide, by decide, by decide,
    c7_partial_read_robust 31999 3 3 [7, 8, 9, 10]
      [[3], [0], [0], [0], [7], [8], [9], [10]] (by decide) (by decide) (by decide)⟩

/-- C8: two consecutive `SecureWriter.Write` calls of the same plaintext on
the same writer produce different wire byte sequences whenever the random
source returns distinct nonce draws: each message's nonce field (wire bytes
4..27 of that message) equals the corresponding draw, so the two messages'
bytes differ. -/
theorem c8_nonce_freshness (key : Nat) (m nb1 nb2 : List Nat)
    (s1 s2 : WriterState)
    (hm : m.length ≤ MaxMessageLength) (h1 : nb1.length = 24)
    (h2 : nb2.length = 24) (hne : nb1 ≠ nb2)
    (hs1 : s1 = (secureWriterWrite key m ⟨[nb1, nb2], [], []⟩).2)
    (hs2 : s2 = (secureWriterWrite key m s1).2) :
    (s1.written.drop 4).take 24 = nb1 ∧
    ((s2.written.drop s1.written.length).drop 4).take 24 = nb2 ∧
    s1.written ≠ s2.written.drop s1.written.length := by
  rw [secureWriterWrite_ok key m nb1 [nb2] [] hm] at hs1
  dsimp only at hs1
  simp only [List.nil_append] at hs1
  subst hs1
  subst hs2
  rw [secureWriterWrite_ok key m nb2 []
    (be32 (nb1.length + m.length + boxOverhead)
      ++ (nb1 ++ sealAfterPrecomputation [] m nb1 key)) hm]
  dsimp only
  have hA : ∀ (x : Nat) (t nb : List Nat), nb.length = 24 →
      ((be32 x ++ (nb ++ t)).drop 4).take 24 = nb := by
    intro x t nb hnb
    rw [List.drop_left' (be32_length x), List.take_left' hnb]
  refine ⟨hA _ _ _ h1, ?_, ?_⟩
  · rw [List.append_assoc, List.drop_left]
    exact hA _ _ _ h2
  · rw [List.append_assoc, List.drop_left]
    intro heq
    apply hne
    have hcong := congrArg (fun l => (l.drop 4).take 24) heq
    simp only at hcong
    rw [hA _ _ _ h1, hA _ _ _ h2] at hcong
    exact hcong

/-- Witness for C8 with two distinct concrete nonce draws. -/
theorem c8_nonce_freshness_witness :
    ([1] : List Nat).length ≤ MaxMessageLength ∧
    (List.replicate 24 0).length = 24 ∧
    (List.replicate 24 1).length = 24 ∧
    (List.replicate 24 0 : List Nat) ≠ List.replicate 24 1 ∧
    (((secureWriterWrite 0 [1]
          ⟨[List.replicate 24 0, List.replicate 24 1], [], []⟩).2.written.drop 4).take 24
        = List.replicate 24 0 ∧
      (((secureWriterWrite 0 [1] (secureWriterWrite 0 [1]
            ⟨[List.replicate 24 0, List.replicate 24 1], [], []⟩).2).2.written.drop
          (secureWriterWrite 0 [1]
            ⟨[List.replicate 24 0, List.replicate 24 1], [], []⟩).2.written.length).drop
              4).take 24
        = List.replicate 24 1 ∧
      (secureWriterWrite 0 [1]
          ⟨[List.replicate 24 0, List.replicate 24 1], [], []⟩).2.written
        ≠ (secureWriterWrite 0 [1] (secureWriterWrite 0 [1]
            ⟨[List.replicate 24 0, List.replicate 24 1], [], []⟩).2).2.written.drop
          (secureWriterWrite 0 [1]
            ⟨[List.replicate 24 0, List.replicate 24 1], [], []⟩).2.written.length) :=
  ⟨by decide, by decide, by decide, by decide,
    c8_nonce_freshness 0 [1] (List.replicate 24 0) (List.replicate 24 1) _ _
      (by decide) (by decide) (by decide) (by decide) rfl rfl⟩

/-- C9: for every accepted plaintext `p`, a successful `SecureWriter.Write`
returns `n = len(p) + 24 + 16` — the number of encrypted bytes written to
the underlying stream (nonce + ciphertext + tag), strictly greater than
`len(p)` — while the wire additionally grows by the 4 header bytes. -/
theorem c9_write_returns_encrypted_count (key : Nat) (p nb : List Nat)
    (randRest : List (List Nat)) (w0 : List Nat)
    (hp : p.length ≤ MaxMessageLength) (hnb : nb.length = 24) :
    (secureWriterWrite key p ⟨nb :: randRest, [], w0⟩).1.1 = p.length + 24 + 16 ∧
    (secureWriterWrite key p ⟨nb :: randRest, [], w0⟩).1.2 = none ∧
    p.length < p.length + 24 + 16 ∧
    (secureWriterWrite key p ⟨nb :: randRest, [], w0⟩).2.written.length
      = w0.length + 4 + (p.length + 24 + 16) := by
  rw [secureWriterWrite_ok key p nb randRest w0 hp]
  refine ⟨?_, rfl, by omega, ?_⟩
  · dsimp only
    rw [hnb]
    simp only [boxOverhead]
    omega
  · dsimp only
    simp only [List.length_append, be32_length, sealAfterPrecomputation_length,
      List.length_nil, boxOverhead, hnb]
    omega

/-- Witness for C9 at a 2-byte plaintext. -/
theorem c9_write_returns_encrypted_count_witness :
    ([5, 6] : List Nat).length ≤ MaxMessageLength ∧
    (List.replicate 24 3).length = 24 ∧
    ((secureWriterWrite 2 [5, 6] ⟨[List.replicate 24 3], [], []⟩).1.1
        = ([5, 6] : List Nat).length + 24 + 16 ∧
      (secureWriterWrite 2 [5, 6] ⟨[List.replicate 24 3], [], []⟩).1.2 = none ∧
      ([5, 6] : List Nat).length < ([5, 6] : List Nat).length + 24 + 16 ∧
      (secureWriterWrite 2 [5, 6] ⟨[List.replicate 24 3], [], []⟩).2.written.length
        = ([] : List Nat).length + 4 + (([5, 6] : List Nat).length + 24 + 16)) :=
  ⟨by decide, by decide,
    c9_write_returns_encrypted_count 2 [5, 6] (List.replicate 24 3) [] []
      (by decide) (by decide)⟩

/-- C10: for a successfully decoded frame of declared length `L`,
`LengthPrefixer.Read` returns `n = L` even when the caller's buffer holds
only `pLen < L` bytes: exactly `pLen` bytes (the payload prefix) are copied
and the remainder is discarded, yet the returned count is the full frame
length `L`. -/
theorem c10_returns_frame_length (maxLength pLen L : Nat) (rest : List Nat)
    (chunks : List (List Nat)) (hflat : chunks.flatten = le32 L ++ rest)
    (hL : L < 4294967296) (hmax : L ≤ maxLength) (hlen : L ≤ rest.length)
    (hshort : pLen < L) :
    (lengthPrefixerRead maxLength pLen chunks).n = L ∧
    (lengthPrefixerRead maxLength pLen chunks).delivered = rest.take pLen ∧
    (lengthPrefixerRead maxLength pLen chunks).delivered.length = pLen ∧
    (lengthPrefixerRead maxLength pLen chunks).err = none := by
  obtain ⟨a, b, c, d⟩ := lengthPrefixerRead_success hflat hL hmax hlen
  refine ⟨a, ?_, ?_, c⟩
  · rw [b, List.take_take]
    congr 1
    omega
  · rw [b, List.length_take, List.length_take]
    omega

/-- Witness for C10: a 3-byte frame read into a 1-byte buffer. -/
theorem c10_returns_frame_length_witness :
    ([le32 3 ++ [7, 8, 9]] : List (List Nat)).flatten = le32 3 ++ [7, 8, 9] ∧
    3 < 4294967296 ∧ 3 ≤ 31999 ∧ 3 ≤ ([7, 8, 9] : List Nat).length ∧ 1 < 3 ∧
    ((lengthPrefixerRead 31999 1 [le32 3 ++ [7, 8, 9]]).n = 3 ∧
      (lengthPrefixerRead 31999 1 [le32 3 ++ [7, 8, 9]]).delivered
        = ([7, 8, 9] : List Nat).take 1 ∧
      (lengthPrefixerRead 31999 1 [le32 3 ++ [7, 8, 9]]).delivered.length = 1 ∧
      (lengthPrefixerRead 31999 1 [le32 3 ++ [7, 8, 9]]).err = none) :=
  ⟨by simp, by decide, by decide, by decide, by decide,
    c10_returns_frame_length 31999 1 3 [7, 8, 9] [le32 3 ++ [7, 8, 9]]
      (by simp) (by decide) (by decide) (by decide) (by decide)⟩
